import Mathlib

/-
  Shallow embedding of `Challenge_1b/run_analysis.py`, a persona-driven PDF
  section-ranking pipeline.  Pure text processing (sentence splitting, page
  extraction, Python slicing) is embedded as executable Lean functions on
  `String`/`List Char`.  Vector arithmetic (cosine similarity as computed by
  `sentence_transformers.util.cos_sim`: L2-normalise both vectors, then dot
  product) is embedded over `ℝ`.  `torch.Tensor.argsort(descending=True)` is
  not guaranteed stable, so it is embedded relationally: `IsDescArgsort s p`
  holds of every index permutation the sort may return.  The file system and
  the sentence encoder are parameters of the pipeline model.  Batch encoding
  of an empty list of texts is a fatal error in the real program
  (`model.encode([], convert_to_tensor=True)` yields either a raise at
  `torch.stack([])` or a shape-`(0,)` tensor on which `util.cos_sim`'s
  matrix multiply raises), so the pipeline model returns an `Option`:
  `none` is a run aborted with no artifact written.
-/

namespace RunAnalysis

/-- Python regex `\s` over the ASCII range: the whitespace characters
recognised by the splitter and by `str.strip()`. -/
def isWs (c : Char) : Bool :=
  c = ' ' || c = '\t' || c = '\n' || c = '\r' || c = '\x0b' || c = '\x0c'

/-- The sentence-ending punctuation of `SECTION_SPLIT_RE`, i.e. the
character class `[\.\?\!]` of the lookbehind. -/
def isSentEnd (c : Char) : Bool :=
  c = '.' || c = '?' || c = '!'

/-- `str.strip()` on a character list: drop whitespace from both ends. -/
def stripChars (l : List Char) : List Char :=
  ((l.dropWhile isWs).reverse.dropWhile isWs).reverse

/-- `str.strip()` on a `String`. -/
def pyStrip (s : String) : String :=
  ⟨stripChars s.data⟩

/-- Truthiness of `s.strip()` in Python: the string contains at least one
non-whitespace character. -/
def hasNonWs (s : String) : Bool :=
  s.data.any (fun c => !(isWs c))

/-- Head of the accumulator is sentence-ending punctuation: the lookbehind
`(?<=[\.\?\!])` of `SECTION_SPLIT_RE` (the accumulator holds the characters
read so far, reversed, so its head is the character just before the current
position; at the start of a piece there is no preceding character). -/
def headSentEnd : List Char → Bool
  | [] => false
  | c :: _ => isSentEnd c

/-- One left-to-right pass of `re.split(r'(?<=[\.\?\!])\s+', text)`.
`acc` holds the current piece reversed; the `Bool` is true while the
characters of an already-matched `\s+` run are being consumed (the regex
match is greedy, so the run is consumed entirely). -/
def splitAux : List Char → Bool → List Char → List (List Char)
  | acc, _, [] => [acc.reverse]
  | acc, true, c :: rest =>
      if isWs c then splitAux acc true rest
      else splitAux (c :: acc) false rest
  | acc, false, c :: rest =>
      if isWs c && headSentEnd acc then acc.reverse :: splitAux [] true rest
      else splitAux (c :: acc) false rest

/-- The raw pieces produced by `SECTION_SPLIT_RE.split(text)`, including
empty or whitespace-only pieces. -/
def splitRaw (l : List Char) : List (List Char) :=
  splitAux [] false l

/-- `split_sentences(text)`: regex split, then keep only the pieces whose
`strip()` is truthy (i.e. the pieces containing a non-whitespace character). -/
def split_sentences (text : String) : List String :=
  ((splitRaw text.data).filter (fun p => p.any (fun c => !(isWs c)))).map
    (fun p => ⟨p⟩)

/-- One extracted page section, as built by `extract_page_sections`
(dictionary keys `document`, `page`, `title`, `text`). -/
structure PageSection where
  document : String
  page : Nat
  title : String
  text : String
  deriving Repr, DecidableEq, Inhabited

/-- `os.path.basename`: the part of the path after the last `/`. -/
def basename (s : String) : String :=
  ⟨(s.data.reverse.takeWhile (fun c => c ≠ '/')).reverse⟩

/-- The page loop of `extract_page_sections`: `n` is the 0-based number of
the first page of `pages` (PyMuPDF's `page.number`); a page whose stripped
text is empty is skipped, otherwise a section with 1-based page number,
title `"Page {n+1}"` and the stripped text is emitted. -/
def extractAux (d : String) : Nat → List String → List PageSection
  | _, [] => []
  | n, t :: rest =>
      if pyStrip t = "" then extractAux d (n + 1) rest
      else { document := d, page := n + 1,
             title := "Page " ++ toString (n + 1),
             text := pyStrip t } :: extractAux d (n + 1) rest

/-- `extract_page_sections(pdf_path)`, with the document reader abstracted:
`pages` is the per-page raw text that `fitz.open(pdf_path)` yields. -/
def extract_page_sections (pdfPath : String) (pages : List String) : List PageSection :=
  extractAux (basename pdfPath) 0 pages

/-- Dot product of two vectors, truncating to the shorter length. -/
def dot (a b : List ℝ) : ℝ :=
  (List.zipWith (fun x y => x * y) a b).sum

/-- Euclidean norm of a vector. -/
noncomputable def vnorm (v : List ℝ) : ℝ :=
  Real.sqrt (dot v v)

/-- L2 normalisation as performed inside `util.cos_sim`
(`torch.nn.functional.normalize`): a vector of zero norm is left as the zero
vector instead of being divided by its norm. -/
noncomputable def l2normalize (v : List ℝ) : List ℝ :=
  if vnorm v = 0 then v else v.map (fun x => x / vnorm v)

/-- `util.cos_sim(a, b)` for a single pair: normalise both vectors, then
take the dot product. -/
noncomputable def cosSim (a b : List ℝ) : ℝ :=
  dot (l2normalize a) (l2normalize b)

/-- Python slicing `l[:k]` for an `int` k: a non-negative bound takes a
prefix, a negative bound removes the last `|k|` elements. -/
def pyTake {α : Type} (k : Int) (l : List α) : List α :=
  if 0 ≤ k then l.take k.toNat else l.take (l.length - k.natAbs)

/-- The score of candidate `i` in the score list `s` (out-of-range indices
default to 0; valid argsort outputs only mention in-range indices). -/
def scoreAt (s : List ℝ) (i : Nat) : ℝ :=
  s.getD i 0

/-- Relational embedding of `scores.argsort(descending=True).tolist()`:
`p` is one of the outputs the (not necessarily stable) sort may return,
i.e. a permutation of `0..N-1` along which the scores are non-increasing. -/
def IsDescArgsort (s : List ℝ) (p : List Nat) : Prop :=
  List.Perm p (List.range s.length) ∧
    p.Pairwise (fun i j => scoreAt s j ≤ scoreAt s i)

/-- The run configuration as read by `load_config` / consumed by `main`:
each field may be absent from the JSON mapping (`cfg.get` is used with a
default for every field). -/
structure RunConfig where
  documents : Option (List String)
  persona : Option String
  job : Option String
  deriving Repr, DecidableEq

/-- One entry of `sub_section_analysis`. -/
structure SubSection where
  refined_text : String
  page_number : Nat
  deriving Repr, DecidableEq

/-- One entry of `extracted_sections`. -/
structure OutSection where
  document : String
  page_number : Nat
  section_title : String
  importance_rank : Nat
  sub_section_analysis : List SubSection
  deriving Repr, DecidableEq

/-- The `metadata` object of the output artifact. -/
structure Metadata where
  documents : List String
  persona : String
  job_to_be_done : String
  timestamp : String
  deriving Repr, DecidableEq

/-- The whole output artifact written by `main`. -/
structure Output where
  metadata : Metadata
  extracted_sections : List OutSection
  deriving Repr, DecidableEq

/-- `os.path.join(pdfdir, fn)` for the simple relative file names used by
the run configuration. -/
def resolvePath (dir fn : String) : String :=
  dir ++ "/" ++ fn

/-- The document loop of `main` (lines 52-56): each listed file name is
resolved against the PDF directory; a path at which the file system `fs`
has no document is skipped, an existing document contributes its extracted
page sections, in configuration order. -/
def collectSections (fs : String → Option (List String)) (pdfdir : String)
    (docs : List String) : List PageSection :=
  docs.flatMap (fun fn =>
    match fs (resolvePath pdfdir fn) with
    | none => []
    | some pages => extract_page_sections (resolvePath pdfdir fn) pages)

/-- `model.encode(texts, convert_to_tensor=True)` followed by
`util.cos_sim(q_emb, ...)[0]` (lines 59-60 and 74-75): on a non-empty
batch, one cosine-similarity score per text against the query vector; on
an empty batch the real calls raise (`torch.stack` of an empty list in
older sentence-transformers, otherwise a `(1,d)` x `(0,1)` matrix-multiply
shape mismatch inside `util.cos_sim`), so the result is `none` and the run
aborts. -/
noncomputable def batchScores (qv : List ℝ) (enc : String → List ℝ)
    (texts : List String) : Option (List ℝ) :=
  match texts with
  | [] => none
  | _ :: _ => some ((texts.map enc).map (fun v => cosSim qv v))

/-- The per-selected-section body of the ranking loop of `main`
(lines 64-82): split the section text into sentences, score each sentence
against the query vector (fatal if the sentence batch is empty), and keep
the top `topSentences` indices as returned by the sentence-level argsort
oracle. -/
noncomputable def rankSection (qv : List ℝ) (enc : String → List ℝ)
    (oracle : List ℝ → List Nat) (topSentences : Int) (rank : Nat)
    (sec : PageSection) : Option OutSection :=
  let sents := split_sentences sec.text
  (batchScores qv enc sents).map (fun sentScores =>
    let topSidx := pyTake topSentences (oracle sentScores)
    { document := sec.document
      page_number := sec.page
      section_title := sec.title
      importance_rank := rank
      sub_section_analysis :=
        topSidx.map (fun si => { refined_text := sents.getD si ""
                                 page_number := sec.page }) })

/-- `main` (lines 40-96) with its effectful collaborators abstracted:
`fs` is the file system (resolved path to page texts of an existing
document), `enc` the sentence-transformer encoder, `oracle` the index
order returned by `argsort(descending=True)` (constrained by
`IsDescArgsort` where a theorem needs it), `timestamp` the UTC time
string.  Missing configuration fields default to `[]` / `""` exactly as
`cfg.get` does.  The result is `none` when the run aborts at an empty
encode batch (section level or sentence level) before the artifact is
assembled and written, and `some` of the written artifact otherwise. -/
noncomputable def runPipeline (cfg : RunConfig) (pdfdir : String)
    (fs : String → Option (List String)) (enc : String → List ℝ)
    (oracle : List ℝ → List Nat) (topSections topSentences : Int)
    (timestamp : String) : Option Output :=
  let docs := cfg.documents.getD []
  let persona := cfg.persona.getD ""
  let job := cfg.job.getD ""
  let query := persona ++ ". " ++ job
  let qv := enc query
  let allSecs := collectSections fs pdfdir docs
  (batchScores qv enc (allSecs.map (fun s => s.text))).bind (fun scores =>
    let ranked := pyTake topSections (oracle scores)
    (ranked.enum.mapM (fun ri =>
        rankSection qv enc oracle topSentences (ri.1 + 1)
          (allSecs.getD ri.2 default))).map
      (fun outSecs =>
        { metadata := { documents := docs, persona := persona,
                        job_to_be_done := job, timestamp := timestamp }
          extracted_sections := outSecs }))

/-- Index exchange used to show that a tie places no constraint on the
order the sort returns. -/
def swapIdx (i j k : Nat) : Nat :=
  if k = i then j else if k = j then i else k

theorem length_of_argsort {s : List ℝ} {p : List Nat}
    (h : IsDescArgsort s p) : p.length = s.length := by
  simpa using h.1.length_eq

theorem nodup_of_argsort {s : List ℝ} {p : List Nat}
    (h : IsDescArgsort s p) : p.Nodup :=
  h.1.nodup_iff.mpr (List.nodup_range _)

theorem lt_of_mem_argsort {s : List ℝ} {p : List Nat} {i : Nat}
    (h : IsDescArgsort s p) (hi : i ∈ p) : i < s.length := by
  have := h.1.mem_iff.mp hi
  simpa using this

theorem scoreAt_map (q : List ℝ) (cands : List (List ℝ)) (i : Nat)
    (h : i < cands.length) :
    scoreAt (cands.map (fun c => cosSim q c)) i = cosSim q (cands.getD i []) := by
  unfold scoreAt
  rw [List.getD_eq_getElem _ _ (by simpa using h), List.getElem_map,
    List.getD_eq_getElem _ _ h]

theorem swapIdx_swapIdx (i j k : Nat) : swapIdx i j (swapIdx i j k) = k := by
  unfold swapIdx
  by_cases h1 : k = i
  · by_cases h2 : j = i <;> simp [h1, h2]
  · by_cases h2 : k = j <;> simp [h1, h2]

theorem swapIdx_lt {n : Nat} (i j k : Nat) (hi : i < n) (hj : j < n)
    (hk : k < n) : swapIdx i j k < n := by
  unfold swapIdx
  split_ifs <;> assumption

theorem range_map_swapIdx (i j n : Nat) (hi : i < n) (hj : j < n) :
    List.Perm ((List.range n).map (swapIdx i j)) (List.range n) := by
  have hinj : Function.Injective (swapIdx i j) := by
    intro a b hab
    rw [← swapIdx_swapIdx i j a, hab, swapIdx_swapIdx]
  refine (List.perm_ext_iff_of_nodup ((List.nodup_range n).map hinj)
    (List.nodup_range n)).mpr ?_
  intro a
  simp only [List.mem_map, List.mem_range]
  constructor
  · rintro ⟨b, hb, rfl⟩
    exact swapIdx_lt i j b hi hj hb
  · intro ha
    exact ⟨swapIdx i j a, swapIdx_lt i j a hi hj ha, swapIdx_swapIdx i j a⟩

theorem scoreAt_swapIdx (s : List ℝ) (i j k : Nat)
    (htie : scoreAt s i = scoreAt s j) :
    scoreAt s (swapIdx i j k) = scoreAt s k := by
  unfold swapIdx
  split_ifs with h1 h2
  · rw [h1, htie]
  · rw [h2, htie]
  · rfl

/-- C1: for a query vector, a non-empty candidate list of `N` vectors and a
requested count `K ≥ 1`, every index list the ranker can return
(`argsort` descending, then the Python slice `[:K]`) has exactly
`min(K, N)` entries, all distinct, all valid indices into the candidates,
ordered by non-increasing cosine similarity to the query. -/
theorem ranker_top_min_k (q : List ℝ) (cands : List (List ℝ)) (K : Int)
    (p : List Nat) (_hne : cands ≠ []) (hK : 1 ≤ K)
    (hp : IsDescArgsort (cands.map (fun c => cosSim q c)) p) :
    (pyTake K p).length = min K.toNat cands.length ∧
    (pyTake K p).Nodup ∧
    (∀ i ∈ pyTake K p, i < cands.length) ∧
    (pyTake K p).Pairwise
      (fun i j => cosSim q (cands.getD j []) ≤ cosSim q (cands.getD i [])) := by
  have h0K : (0 : Int) ≤ K := le_trans (by norm_num) hK
  have hpy : pyTake K p = p.take K.toNat := by simp [pyTake, h0K]
  have hlen : p.length = cands.length := by
    simpa using length_of_argsort hp
  have hmemlt : ∀ i ∈ pyTake K p, i < cands.length := by
    intro i hi
    rw [hpy] at hi
    have : i ∈ p := List.take_subset _ _ hi
    simpa [hlen] using lt_of_mem_argsort hp this
  refine ⟨?_, ?_, hmemlt, ?_⟩
  · rw [hpy, List.length_take, hlen]
  · rw [hpy]
    exact (nodup_of_argsort hp).sublist (List.take_sublist _ _)
  · have hP := hp.2.sublist (List.take_sublist K.toNat p)
    rw [← hpy] at hP
    refine hP.imp_of_mem ?_
    intro a b ha hb hr
    rwa [scoreAt_map q cands a (hmemlt a ha),
      scoreAt_map q cands b (hmemlt b hb)] at hr

/-- C1 witness: the ranker theorem applied at the query `[1]`, the single
candidate `[[1]]`, `K = 1` and the argsort output `[0]`. -/
theorem ranker_top_min_k_witness :
    (pyTake 1 ([0] : List Nat)).length = min (Int.toNat 1) ([[(1 : ℝ)]]).length ∧
    (pyTake 1 ([0] : List Nat)).Nodup ∧
    (∀ i ∈ pyTake 1 ([0] : List Nat), i < ([[(1 : ℝ)]]).length) ∧
    (pyTake 1 ([0] : List Nat)).Pairwise
      (fun i j => cosSim [1] (([[(1 : ℝ)]]).getD j []) ≤
        cosSim [1] (([[(1 : ℝ)]]).getD i [])) := by
  exact ranker_top_min_k [1] [[1]] 1 [0] (by decide) (by norm_num)
    ⟨by decide, by simp⟩

/-- C2 counterexample: both candidates `[1]` and `[1]` have the same cosine
similarity to the query `[1]`, yet `[1, 0]` is a valid output of the
(unstable) descending argsort, and the ranker then returns candidate 1
before candidate 0, reversing the original order. -/
theorem ranker_tie_counterexample :
    IsDescArgsort ([[(1 : ℝ)], [1]].map (fun c => cosSim [1] c)) [1, 0] ∧
    cosSim [1] ([[(1 : ℝ)], [1]].getD 0 []) =
      cosSim [1] ([[(1 : ℝ)], [1]].getD 1 []) ∧
    pyTake 2 [1, 0] = [1, 0] ∧
    [1, 0].indexOf 1 < [1, 0].indexOf 0 := by
  refine ⟨⟨by decide, ?_⟩, rfl, by decide, by decide⟩
  simp [List.pairwise_cons, scoreAt]

/-- C2 (amended): equal similarity scores place no constraint on the
relative order of the tied candidates: exchanging two tied indices in any
valid descending argsort output yields another valid output, so the ranker
is not required to preserve their original order. -/
theorem ranker_tie_swap (s : List ℝ) (p : List Nat) (i j : Nat)
    (hi : i < s.length) (hj : j < s.length)
    (htie : scoreAt s i = scoreAt s j)
    (hp : IsDescArgsort s p) :
    IsDescArgsort s (p.map (swapIdx i j)) := by
  obtain ⟨hperm, hpair⟩ := hp
  constructor
  · exact (hperm.map (swapIdx i j)).trans (range_map_swapIdx i j s.length hi hj)
  · rw [List.pairwise_map]
    refine hpair.imp ?_
    intro a b h
    rw [scoreAt_swapIdx s i j a htie, scoreAt_swapIdx s i j b htie]
    exact h

/-- C2 (amended) witness: exchanging the tied indices 0 and 1 in the valid
argsort output `[0, 1]` for the scores `[1, 1]` again yields a valid
output. -/
theorem ranker_tie_swap_witness :
    IsDescArgsort [(1 : ℝ), 1] ([0, 1].map (swapIdx 0 1)) := by
  exact ranker_tie_swap [(1 : ℝ), 1] [0, 1] 0 1 (by norm_num) (by norm_num)
    (by simp [scoreAt]) ⟨by decide, by simp [List.pairwise_cons, scoreAt]⟩

/-- C4 counterexample: with three candidates and the requested count
`K = -1`, the Python slice `[: -1]` keeps the first two ranked indices, so
the ranking is not empty although `K ≤ 0`. -/
theorem ranker_negative_k_counterexample :
    IsDescArgsort [(0 : ℝ), 1, 2] [2, 1, 0] ∧
    pyTake (-1) [2, 1, 0] = [2, 1] ∧ ([2, 1] : List Nat) ≠ [] := by
  refine ⟨⟨by decide, ?_⟩, by decide, by decide⟩
  simp [List.pairwise_cons, scoreAt]

/-- C4 (amended): a requested count of exactly 0 yields an empty ranking,
while a negative `K` yields all ranked indices except the last `|K|`
(hence an empty ranking only when `|K| ≥ N`). -/
theorem ranker_nonpositive_k (s : List ℝ) (p : List Nat) (K : Int)
    (hp : IsDescArgsort s p) :
    (K = 0 → pyTake K p = []) ∧
    (K < 0 → (pyTake K p).length = s.length - K.natAbs) := by
  have hlen : p.length = s.length := length_of_argsort hp
  constructor
  · rintro rfl
    simp [pyTake]
  · intro hK
    have h0 : ¬ (0 : Int) ≤ K := by omega
    simp only [pyTake, h0, if_false, List.length_take, hlen]
    exact Nat.min_eq_left (Nat.sub_le _ _)

/-- C4 (amended) witness: the theorem applied at the scores `[0]`, the
argsort output `[0]`, and the counts `K = 0` and `K = -1`. -/
theorem ranker_nonpositive_k_witness :
    pyTake (0 : Int) ([0] : List Nat) = [] ∧
    (pyTake (-1 : Int) ([0] : List Nat)).length =
      [(0 : ℝ)].length - (Int.natAbs (-1)) := by
  have h : IsDescArgsort [(0 : ℝ)] [0] := ⟨by decide, by simp⟩
  exact ⟨(ranker_nonpositive_k [(0 : ℝ)] [0] 0 h).1 rfl,
    (ranker_nonpositive_k [(0 : ℝ)] [0] (-1) h).2 (by norm_num)⟩

theorem dot_cons (x y : ℝ) (a b : List ℝ) :
    dot (x :: a) (y :: b) = x * y + dot a b := by
  simp [dot]

theorem dot_self_nonneg (v : List ℝ) : 0 ≤ dot v v := by
  induction v with
  | nil => simp [dot]
  | cons x rest ih =>
      rw [dot_cons]
      exact add_nonneg (mul_self_nonneg x) ih

theorem eq_zero_of_dot_self_eq_zero {v : List ℝ} (h : dot v v = 0) :
    ∀ x ∈ v, x = 0 := by
  induction v with
  | nil => simp
  | cons x rest ih =>
      rw [dot_cons] at h
      have hx : x * x = 0 ∧ dot rest rest = 0 :=
        (add_eq_zero_iff_of_nonneg (mul_self_nonneg x) (dot_self_nonneg rest)).mp h
      intro y hy
      rcases List.mem_cons.mp hy with rfl | hy
      · exact mul_self_eq_zero.mp hx.1
      · exact ih hx.2 y hy

theorem dot_eq_zero_left {a : List ℝ} (h : ∀ x ∈ a, x = 0) :
    ∀ b : List ℝ, dot a b = 0 := by
  induction a with
  | nil => intro b; simp [dot]
  | cons x rest ih =>
      intro b
      cases b with
      | nil => simp [dot]
      | cons y bs =>
          rw [dot_cons, h x (List.mem_cons_self x rest),
            ih (fun z hz => h z (List.mem_cons_of_mem x hz)) bs]
          ring

theorem dot_comm (a : List ℝ) : ∀ b : List ℝ, dot a b = dot b a := by
  induction a with
  | nil => intro b; cases b <;> rfl
  | cons x rest ih =>
      intro b
      cases b with
      | nil => rfl
      | cons y bs => rw [dot_cons, dot_cons, ih bs, mul_comm]

theorem dot_map_div (a : List ℝ) (c d : ℝ) :
    ∀ b : List ℝ,
      dot (a.map (fun x => x / c)) (b.map (fun y => y / d)) =
        dot a b / (c * d) := by
  induction a with
  | nil => intro b; simp [dot]
  | cons x rest ih =>
      intro b
      cases b with
      | nil => simp [dot]
      | cons y bs =>
          simp only [List.map_cons]
          rw [dot_cons, dot_cons, ih bs, div_mul_div_comm, ← add_div]

theorem vnorm_eq_zero_iff (v : List ℝ) : vnorm v = 0 ↔ dot v v = 0 := by
  unfold vnorm
  exact Real.sqrt_eq_zero (dot_self_nonneg v)

/-- C3: the similarity the ranker uses (`util.cos_sim`: L2-normalise both
vectors, then dot product, where a zero-norm vector stays the zero vector
instead of being divided by its norm) equals `dot(a,b) / (‖a‖·‖b‖)` when
both norms are non-zero, and equals 0 whenever either norm is zero, so no
division by zero is ever performed. -/
theorem cosSim_spec (a b : List ℝ) :
    (vnorm a ≠ 0 → vnorm b ≠ 0 →
      cosSim a b = dot a b / (vnorm a * vnorm b)) ∧
    (vnorm a = 0 ∨ vnorm b = 0 → cosSim a b = 0) := by
  constructor
  · intro ha hb
    unfold cosSim l2normalize
    rw [if_neg ha, if_neg hb]
    exact dot_map_div a (vnorm a) (vnorm b) b
  · intro h
    rcases h with h | h
    · have hz : ∀ x ∈ a, x = 0 :=
        eq_zero_of_dot_self_eq_zero ((vnorm_eq_zero_iff a).mp h)
      unfold cosSim l2normalize
      rw [if_pos h]
      by_cases hb : vnorm b = 0
      · rw [if_pos hb]; exact dot_eq_zero_left hz b
      · rw [if_neg hb]; exact dot_eq_zero_left hz _
    · have hz : ∀ x ∈ b, x = 0 :=
        eq_zero_of_dot_self_eq_zero ((vnorm_eq_zero_iff b).mp h)
      unfold cosSim l2normalize
      rw [if_pos h]
      by_cases ha : vnorm a = 0
      · rw [if_pos ha, dot_comm]; exact dot_eq_zero_left hz a
      · rw [if_neg ha, dot_comm]; exact dot_eq_zero_left hz _

/-- C3 witness: the quotient form at the unit vectors `[1]`, `[1]`, and the
zero-vector case at `[0]`, `[1]`. -/
theorem cosSim_spec_witness :
    cosSim [(1 : ℝ)] [1] = dot [1] [1] / (vnorm [1] * vnorm [1]) ∧
    cosSim [(0 : ℝ)] [1] = 0 := by
  have h1 : vnorm [(1 : ℝ)] ≠ 0 := by
    unfold vnorm
    rw [show dot [(1 : ℝ)] [1] = 1 by simp [dot], Real.sqrt_one]
    norm_num
  have h0 : vnorm [(0 : ℝ)] = 0 := by
    unfold vnorm
    rw [show dot [(0 : ℝ)] [0] = 0 by simp [dot], Real.sqrt_zero]
  exact ⟨(cosSim_spec [1] [1]).1 h1 h1, (cosSim_spec [0] [1]).2 (Or.inl h0)⟩

theorem filter_dropWhile_ws (l : List Char) :
    (l.dropWhile isWs).filter (fun c => !(isWs c)) =
      l.filter (fun c => !(isWs c)) := by
  induction l with
  | nil => rfl
  | cons c rest ih =>
      simp only [List.dropWhile_cons, List.filter_cons]
      by_cases h : isWs c <;> simp [h, ih]

theorem filter_flatten_splitAux :
    ∀ (l : List Char) (acc : List Char) (b : Bool),
      ((splitAux acc b l).flatten).filter (fun c => !(isWs c)) =
        (acc.reverse ++ l).filter (fun c => !(isWs c)) := by
  intro l
  induction l with
  | nil =>
      intro acc b
      cases b <;> simp [splitAux]
  | cons c rest ih =>
      intro acc b
      cases b
      · by_cases h : isWs c && headSentEnd acc
        · have hc : isWs c = true := (Bool.and_eq_true_iff.mp h).1
          rw [show splitAux acc false (c :: rest) =
              acc.reverse :: splitAux [] true rest by simp [splitAux, h]]
          rw [List.flatten_cons, List.filter_append, ih [] true]
          simp [List.filter_append, List.filter_cons, hc]
        · rw [show splitAux acc false (c :: rest) =
              splitAux (c :: acc) false rest by simp [splitAux, h]]
          rw [ih (c :: acc) false]
          simp [List.filter_append, List.filter_cons]
      · by_cases h : isWs c
        · rw [show splitAux acc true (c :: rest) = splitAux acc true rest by
              simp [splitAux, h]]
          rw [ih acc true]
          simp [List.filter_append, List.filter_cons, h]
        · rw [show splitAux acc true (c :: rest) =
              splitAux (c :: acc) false rest by simp [splitAux, h]]
          rw [ih (c :: acc) false]
          simp [List.filter_append, List.filter_cons]

theorem filter_flatten_eq_nil {f : Char → Bool} :
    ∀ (L : List (List Char)), (∀ p ∈ L, p.filter f = []) →
      L.flatten.filter f = [] := by
  intro L
  induction L with
  | nil => intro _; rfl
  | cons p rest ih =>
      intro h
      rw [List.flatten_cons, List.filter_append, h p (List.mem_cons_self p rest),
        ih (fun q hq => h q (List.mem_cons_of_mem p hq))]
      rfl

theorem hasNonWs_of_mem_split {t s : String}
    (hs : s ∈ split_sentences t) : hasNonWs s = true := by
  unfold split_sentences at hs
  obtain ⟨p, hp, rfl⟩ := List.mem_map.mp hs
  have := (List.mem_filter.mp hp).2
  simpa [hasNonWs] using this

theorem split_sentences_ne_nil {t : String} (h : hasNonWs t = true) :
    split_sentences t ≠ [] := by
  intro hempty
  unfold split_sentences at hempty
  have hfil : (splitRaw t.data).filter
      (fun p => p.any (fun c => !(isWs c))) = [] :=
    List.map_eq_nil_iff.mp hempty
  have hall : ∀ p ∈ splitRaw t.data, p.filter (fun c => !(isWs c)) = [] := by
    intro p hp
    have hnot : ¬ (p.any (fun c => !(isWs c)) = true) :=
      (List.filter_eq_nil_iff.mp hfil) p hp
    rw [List.filter_eq_nil_iff]
    intro a ha hfa
    exact hnot (List.any_eq_true.mpr ⟨a, ha, hfa⟩)
  have hjoin : ((splitRaw t.data).flatten).filter (fun c => !(isWs c)) =
      t.data.filter (fun c => !(isWs c)) := by
    simpa [splitRaw] using filter_flatten_splitAux t.data [] false
  rw [filter_flatten_eq_nil (splitRaw t.data) hall] at hjoin
  obtain ⟨c, hc, hfc⟩ := List.any_eq_true.mp
    (show t.data.any (fun c => !(isWs c)) = true from h)
  have hmem : c ∈ t.data.filter (fun c => !(isWs c)) :=
    List.mem_filter.mpr ⟨hc, hfc⟩
  rw [← hjoin] at hmem
  exact absurd hmem (List.not_mem_nil c)

/-- C7: every sentence the splitter returns contains a non-whitespace
character (empty and whitespace-only pieces are discarded), and on the
specification's example the splitter yields exactly the three expected
sentences, with the punctuation kept and the boundary whitespace
consumed. -/
theorem split_sentences_spec :
    (∀ (t : String), ∀ s ∈ split_sentences t, hasNonWs s = true) ∧
    split_sentences "Hello world. This is a test! Is it working?" =
      ["Hello world.", "This is a test!", "Is it working?"] :=
  ⟨fun _ _ hs => hasNonWs_of_mem_split hs, by decide⟩

/-- C7 witness: the splitter theorem applied to the example string and its
first returned sentence. -/
theorem split_sentences_spec_witness :
    hasNonWs "Hello world." = true ∧
    split_sentences "Hello world. This is a test! Is it working?" =
      ["Hello world.", "This is a test!", "Is it working?"] :=
  ⟨split_sentences_spec.1 "Hello world. This is a test! Is it working?"
      "Hello world." (by decide),
    split_sentences_spec.2⟩

/-- C10: for a selected section whose text contains a non-whitespace
character (as every extracted Candidate Unit's text does) and a requested
top-sentence count `K ≥ 1`, the nested sentence list built from any valid
sentence-level argsort output is non-empty, and each refined text is one of
the section's own sentences, hence itself non-whitespace. -/
theorem selected_section_sentences (text : String) (K : Int)
    (scores : List ℝ) (p : List Nat)
    (htext : hasNonWs text = true) (hK : 1 ≤ K)
    (hlen : scores.length = (split_sentences text).length)
    (hp : IsDescArgsort scores p) :
    ((pyTake K p).map (fun si => (split_sentences text).getD si "")) ≠ [] ∧
    (∀ s ∈ (pyTake K p).map (fun si => (split_sentences text).getD si ""),
      s ∈ split_sentences text ∧ hasNonWs s = true) := by
  have hplen : p.length = (split_sentences text).length := by
    rw [length_of_argsort hp, hlen]
  have hsne : split_sentences text ≠ [] := split_sentences_ne_nil htext
  have h0K : (0 : Int) ≤ K := by omega
  have hpy : pyTake K p = p.take K.toNat := by simp [pyTake, h0K]
  constructor
  · intro hempty
    have hlen0 : (pyTake K p).length = 0 := by
      rw [List.map_eq_nil_iff.mp hempty]
      rfl
    rw [hpy, List.length_take, hplen] at hlen0
    have hpos : 0 < (split_sentences text).length := List.length_pos.mpr hsne
    omega
  · intro s hs
    obtain ⟨si, hsi, rfl⟩ := List.mem_map.mp hs
    have hsiP : si ∈ p := by
      rw [hpy] at hsi
      exact List.take_subset _ _ hsi
    have hsilt : si < (split_sentences text).length := by
      have := lt_of_mem_argsort hp hsiP
      omega
    have hmem : (split_sentences text).getD si "" ∈ split_sentences text := by
      rw [List.getD_eq_getElem _ _ hsilt]
      exact List.getElem_mem _
    exact ⟨hmem, hasNonWs_of_mem_split hmem⟩

/-- C10 witness: the theorem applied to the section text `"Hi."`, `K = 1`,
the sentence scores `[1]` and the argsort output `[0]`. -/
theorem selected_section_sentences_witness :
    ((pyTake 1 ([0] : List Nat)).map
      (fun si => (split_sentences "Hi.").getD si "")) ≠ [] ∧
    (∀ s ∈ (pyTake 1 ([0] : List Nat)).map
        (fun si => (split_sentences "Hi.").getD si ""),
      s ∈ split_sentences "Hi." ∧ hasNonWs s = true) := by
  exact selected_section_sentences "Hi." 1 [(1 : ℝ)] [0] (by decide)
    (by norm_num) (by decide) ⟨by decide, by simp⟩

/-- The section emitted for the page with 1-based number `m` and stripped
text `t` of the document `d`. -/
def secAt (d : String) (m : Nat) (t : String) : PageSection :=
  { document := d, page := m, title := "Page " ++ toString m, text := t }

theorem mem_extractAux (d : String) :
    ∀ (pages : List String) (n : Nat) (u : PageSection),
      u ∈ extractAux d n pages ↔
        ∃ k, k < pages.length ∧ pyStrip (pages.getD k "") ≠ "" ∧
          u = secAt d (n + k + 1) (pyStrip (pages.getD k "")) := by
  intro pages
  induction pages with
  | nil => intro n u; simp [extractAux]
  | cons t rest ih =>
      intro n u
      by_cases h : pyStrip t = ""
      · rw [show extractAux d n (t :: rest) = extractAux d (n + 1) rest by
            simp [extractAux, h]]
        rw [ih (n + 1) u]
        constructor
        · rintro ⟨k, hk, hs, rfl⟩
          have e : n + 1 + k + 1 = n + (k + 1) + 1 := by omega
          refine ⟨k + 1, by simpa using hk, by simpa using hs, ?_⟩
          rw [← e]
          simp
        · rintro ⟨k, hk, hs, rfl⟩
          cases k with
          | zero => simp at hs; exact absurd h hs
          | succ k =>
              have e : n + (k + 1) + 1 = n + 1 + k + 1 := by omega
              refine ⟨k, by simpa using hk, by simpa using hs, ?_⟩
              rw [e]
              simp
      · rw [show extractAux d n (t :: rest) =
            secAt d (n + 1) (pyStrip t) :: extractAux d (n + 1) rest by
            simp [extractAux, h, secAt]]
        rw [List.mem_cons, ih (n + 1) u]
        constructor
        · rintro (rfl | ⟨k, hk, hs, rfl⟩)
          · exact ⟨0, by simp, by simpa using h, by simp⟩
          · have e : n + 1 + k + 1 = n + (k + 1) + 1 := by omega
            refine ⟨k + 1, by simpa using hk, by simpa using hs, ?_⟩
            rw [← e]
            simp
        · rintro ⟨k, hk, hs, rfl⟩
          cases k with
          | zero => left; simp
          | succ k =>
              right
              have e : n + (k + 1) + 1 = n + 1 + k + 1 := by omega
              refine ⟨k, by simpa using hk, by simpa using hs, ?_⟩
              rw [e]
              simp

theorem pairwise_page_extractAux (d : String) :
    ∀ (pages : List String) (n : Nat),
      ((extractAux d n pages).map (fun u => u.page)).Pairwise (· < ·) := by
  intro pages
  induction pages with
  | nil => intro n; simp [extractAux]
  | cons t rest ih =>
      intro n
      by_cases h : pyStrip t = ""
      · rw [show extractAux d n (t :: rest) = extractAux d (n + 1) rest by
            simp [extractAux, h]]
        exact ih (n + 1)
      · rw [show extractAux d n (t :: rest) =
            secAt d (n + 1) (pyStrip t) :: extractAux d (n + 1) rest by
            simp [extractAux, h, secAt]]
        rw [List.map_cons, List.pairwise_cons]
        refine ⟨?_, ih (n + 1)⟩
        intro x hx
        obtain ⟨u, hu, rfl⟩ := List.mem_map.mp hx
        obtain ⟨k, _, _, rfl⟩ := (mem_extractAux d rest (n + 1) u).mp hu
        show n + 1 < n + 1 + k + 1
        omega

/-- C8: the Unit Extractor emits one Candidate Unit per page whose stripped
text is non-empty, carrying the document's base name, the page's original
1-based number (so blank pages are skipped without renumbering), the label
`"Page {locator}"` and the stripped page text; the emitted page numbers are
strictly increasing (page order), and page `i+1` appears among them exactly
when page `i`'s stripped text is non-empty. -/
theorem extract_page_sections_spec (d : String) (pages : List String) :
    (∀ u ∈ extract_page_sections d pages,
      u.document = basename d ∧
      1 ≤ u.page ∧ u.page ≤ pages.length ∧
      u.title = "Page " ++ toString u.page ∧
      u.text = pyStrip (pages.getD (u.page - 1) "") ∧
      pyStrip (pages.getD (u.page - 1) "") ≠ "") ∧
    ((extract_page_sections d pages).map (fun u => u.page)).Pairwise (· < ·) ∧
    (∀ i, i < pages.length →
      (pyStrip (pages.getD i "") ≠ "" ↔
        (i + 1) ∈ (extract_page_sections d pages).map (fun u => u.page))) := by
  refine ⟨?_, pairwise_page_extractAux (basename d) pages 0, ?_⟩
  · intro u hu
    obtain ⟨k, hk, hs, rfl⟩ :=
      (mem_extractAux (basename d) pages 0 u).mp hu
    have e : 0 + k + 1 - 1 = k := by omega
    refine ⟨rfl, by simp [secAt], ?_, rfl, ?_, ?_⟩
    · simp only [secAt]
      omega
    · simp only [secAt, e]
    · simp only [secAt, e]
      exact hs
  · intro i hi
    constructor
    · intro hs
      refine List.mem_map.mpr
        ⟨secAt (basename d) (0 + i + 1) (pyStrip (pages.getD i "")), ?_, ?_⟩
      · exact (mem_extractAux (basename d) pages 0 _).mpr ⟨i, hi, hs, rfl⟩
      · simp [secAt]
    · intro hmem
      obtain ⟨u, hu, hup⟩ := List.mem_map.mp hmem
      obtain ⟨k, hk, hs, rfl⟩ :=
        (mem_extractAux (basename d) pages 0 u).mp hu
      have : k = i := by
        have : (secAt (basename d) (0 + k + 1)
            (pyStrip (pages.getD k ""))).page = i + 1 := hup
        simp only [secAt] at this
        omega
      rwa [this] at hs

/-- C8 witness: on the three-page document with a blank page 2, the
extracted page numbers are exactly 1 and 3, and the characterisation of
emitted pages applied at page index 2 confirms locator 3 is present. -/
theorem extract_page_sections_spec_witness :
    ((3 : Nat) ∈ (extract_page_sections "doc.pdf" ["a", " ", "b"]).map
      (fun u => u.page)) ∧
    (extract_page_sections "doc.pdf" ["a", " ", "b"]).map
      (fun u => u.page) = [1, 3] := by
  refine ⟨((extract_page_sections_spec "doc.pdf" ["a", " ", "b"]).2.2 2
    (by decide)).mp (by decide), by decide⟩

/-- C6: a configured document whose resolved path does not exist is
silently skipped: on its own it contributes zero Candidate Units, and in
the middle of a configuration it disappears while the documents before and
after it are still processed, in configuration order. -/
theorem missing_doc_skipped (fs : String → Option (List String))
    (pdfdir fn : String) (pre post : List String)
    (h : fs (resolvePath pdfdir fn) = none) :
    collectSections fs pdfdir [fn] = [] ∧
    collectSections fs pdfdir (pre ++ fn :: post) =
      collectSections fs pdfdir pre ++ collectSections fs pdfdir post := by
  constructor
  · simp [collectSections, h]
  · unfold collectSections
    rw [List.flatMap_append, List.flatMap_cons, h]
    simp

/-- A three-document file system for the C6 witness: `b.pdf` is absent. -/
def exampleFs : String → Option (List String) :=
  fun path =>
    if path = "d/a.pdf" then some ["alpha"]
    else if path = "d/c.pdf" then some ["gamma"]
    else none

/-- C6 witness: skipping the missing `b.pdf` between `a.pdf` and `c.pdf`. -/
theorem missing_doc_skipped_witness :
    collectSections exampleFs "d" ["b.pdf"] = [] ∧
    collectSections exampleFs "d" (["a.pdf"] ++ "b.pdf" :: ["c.pdf"]) =
      collectSections exampleFs "d" ["a.pdf"] ++
        collectSections exampleFs "d" ["c.pdf"] := by
  exact missing_doc_skipped exampleFs "d" "b.pdf" ["a.pdf"] ["c.pdf"] (by decide)

theorem collect_nil_of_all_missing (fs : String → Option (List String))
    (pdfdir : String) :
    ∀ (docs : List String),
      (∀ fn ∈ docs, fs (resolvePath pdfdir fn) = none) →
      collectSections fs pdfdir docs = [] := by
  intro docs
  induction docs with
  | nil => intro _; rfl
  | cons fn rest ih =>
      intro h
      unfold collectSections
      rw [List.flatMap_cons, h fn (List.mem_cons_self fn rest)]
      simpa [collectSections] using ih (fun g hg => h g (List.mem_cons_of_mem fn hg))

/-- C5: when every configured document file is missing, the section-level
candidate set is empty and the pipeline does NOT complete: it aborts at the
empty encode batch (`model.encode([], convert_to_tensor=True)` /
`util.cos_sim`) before the artifact is assembled, so no output is written —
contradicting the specified degenerate-run behaviour. -/
theorem pipeline_all_docs_missing (cfg : RunConfig) (pdfdir : String)
    (fs : String → Option (List String)) (enc : String → List ℝ)
    (oracle : List ℝ → List Nat) (topSections topSentences : Int)
    (ts : String)
    (hfs : ∀ fn ∈ cfg.documents.getD [], fs (resolvePath pdfdir fn) = none) :
    runPipeline cfg pdfdir fs enc oracle topSections topSentences ts = none := by
  have hcol : collectSections fs pdfdir (cfg.documents.getD []) = [] :=
    collect_nil_of_all_missing fs pdfdir _ hfs
  unfold runPipeline
  simp [hcol, batchScores]

/-- C5 witness: a run whose single configured document is missing from the
file system aborts with no artifact. -/
theorem pipeline_all_docs_missing_witness :
    runPipeline { documents := some ["a.pdf"], persona := some "P",
                  job := some "J" }
      "d" (fun _ => none) (fun _ => [1]) (fun _ => []) 5 3 "T" = none := by
  exact pipeline_all_docs_missing
    { documents := some ["a.pdf"], persona := some "P", job := some "J" }
    "d" (fun _ => none) (fun _ => [1]) (fun _ => []) 5 3 "T"
    (fun fn _ => rfl)

/-- C9 counterexample: a configuration missing the required `persona` field
is not rejected at load time: with one existing one-page document the
pipeline runs to completion, silently defaulting the missing field to `""`,
ranking the document's page, and writing the full output artifact.  (The
oracle `fun _ => [0]` is the unique valid descending argsort for the
single-element score batches this run produces.) -/
theorem missing_fields_counterexample :
    runPipeline { documents := some ["a.pdf"], persona := none,
                  job := some "J" }
      "d" (fun _ => some ["alpha"]) (fun _ => [1]) (fun _ => [0]) 5 3 "T" =
      some { metadata := { documents := ["a.pdf"], persona := "",
                           job_to_be_done := "J", timestamp := "T" },
             extracted_sections :=
               [{ document := "a.pdf", page_number := 1,
                  section_title := "Page 1", importance_rank := 1,
                  sub_section_analysis :=
                    [{ refined_text := "alpha", page_number := 1 }] }] } := by
  rfl

/-- C9 (amended): a configuration missing any of the `documents`,
`persona` or `job` fields is silently defaulted (`[]`, `""`, `""`
respectively) and the run proceeds exactly as if the default had been
written explicitly; no configuration error interrupts the run. -/
theorem missing_fields_defaulted (docs : Option (List String))
    (per jb : Option String) (pdfdir : String)
    (fs : String → Option (List String)) (enc : String → List ℝ)
    (oracle : List ℝ → List Nat) (k1 k2 : Int) (ts : String) :
    (runPipeline { documents := none, persona := per, job := jb }
        pdfdir fs enc oracle k1 k2 ts =
      runPipeline { documents := some [], persona := per, job := jb }
        pdfdir fs enc oracle k1 k2 ts) ∧
    (runPipeline { documents := docs, persona := none, job := jb }
        pdfdir fs enc oracle k1 k2 ts =
      runPipeline { documents := docs, persona := some "", job := jb }
        pdfdir fs enc oracle k1 k2 ts) ∧
    (runPipeline { documents := docs, persona := per, job := none }
        pdfdir fs enc oracle k1 k2 ts =
      runPipeline { documents := docs, persona := per, job := some "" }
        pdfdir fs enc oracle k1 k2 ts) :=
  ⟨rfl, rfl, rfl⟩

end RunAnalysis
